import Mathlib

/-!
Verification of the `c3py` history checker (`src/c3py/history.py`).

The data model (`Instruction`, `Operation`, `History`), the oracle interface
(`Specification` with its replay function `satisfies`), the reference
key-value oracle (`RWMemorySpecification`) and the three checking algorithms
(`check_CC`, `check_CM`, `check_CCv`) are translated from the source.

The partial-order engine (`c3py.poset.Poset`) is imported by the source but
its module is not part of the sources available here; it is modelled from the
specification's description of its interface (elements, reflexive
predecessors, induced sub-orders, exhaustive refinements, all topological
sorts).  Identifiers are strings, as in the source.
-/

/-- Operation identifiers, `"{process}.{index}"` strings in the source. -/
abbrev OpId := String

/-- The `Instruction` record: an invocation with no known outcome
(`method`, `arg`, optional `op_id`). -/
structure Instruction (M A : Type) where
  method : M
  arg : A
  op_id : Option OpId := none
deriving DecidableEq

/-- The `Operation` record: an invocation together with its observed outcome
(`method`, `arg`, `ret`, optional `op_id`). -/
structure Operation (M A R : Type) where
  method : M
  arg : A
  ret : R
  op_id : Option OpId := none
deriving DecidableEq

/-- The projection `Operation.to_instruction`: drop `ret`, keep `method`/`arg`/`op_id`. -/
def Operation.to_instruction (o : Operation M A R) : Instruction M A :=
  { method := o.method, arg := o.arg, op_id := o.op_id }

/-- A log entry (the source's `Instruction | Operation` union): either a bare
instruction (hidden return) or a full operation (known return). -/
inductive Entry (M A R : Type) where
  | instr (i : Instruction M A)
  | op (o : Operation M A R)
deriving DecidableEq

/-- The instruction view of an entry: an `Operation` is projected through
`to_instruction`, an `Instruction` is itself. -/
def Entry.toInstruction : Entry M A R → Instruction M A
  | .instr i => i
  | .op o => o.to_instruction

/-- Downgrade an entry to its return-hiding form, as the comprehension in
`causal_hist` does via `op.to_instruction()`.  On an entry that is already an
`Instruction` the source would raise `AttributeError`; the model keeps it
unchanged (the checkers only ever downgrade labels that are `Operation`s). -/
def Entry.hideRet : Entry M A R → Entry M A R
  | .instr i => .instr i
  | .op o => .instr o.to_instruction

instance [Inhabited M] [Inhabited A] : Inhabited (Entry M A R) :=
  ⟨.instr { method := default, arg := default, op_id := none }⟩

/-- Modelled from the spec: the partial-order engine's order values.  A
finite universe of identifiers together with the strict precedence relation,
kept as an explicit list of pairs (transitively closed for orders built by
this development). -/
structure Poset where
  univ : List OpId
  rel : List (OpId × OpId)
deriving DecidableEq

namespace Poset

/-- Modelled from the spec: `elements()` returns the universe. -/
def elements (p : Poset) : List OpId := p.univ

/-- Modelled from the spec: strict precedence test. -/
def ltb (p : Poset) (a b : OpId) : Bool := p.rel.contains (a, b)

/-- Modelled from the spec: `predecessors(op_id)` is the reflexive set of
identifiers at-or-before `op_id` (it includes `op_id` itself whenever
`op_id` is in the universe). -/
def predecessors (p : Poset) (op_id : OpId) : List OpId :=
  p.univ.filter (fun x => p.ltb x op_id || x == op_id)

/-- Modelled from the spec: `subset(ids)` is the order induced on `ids`. -/
def subset (p : Poset) (ids : List OpId) : Poset :=
  { univ := p.univ.filter (fun x => ids.contains x)
    rel := p.rel.filter (fun q => ids.contains q.1 && ids.contains q.2) }

/-- Modelled from the spec: validity of a strict-order relation over a
universe — pairs within the universe, irreflexive and transitive. -/
def validRel (univ : List OpId) (r : List (OpId × OpId)) : Bool :=
  r.all (fun q => univ.contains q.1 && univ.contains q.2 && !(q.1 == q.2)) &&
  r.all (fun q => r.all (fun q' => !(q.2 == q'.1) || r.contains (q.1, q'.2)))

/-- All ordered pairs of distinct identifiers of the universe. -/
def allPairs (univ : List OpId) : List (OpId × OpId) :=
  univ.flatMap (fun a => (univ.filter (fun b => !(b == a))).map (fun b => (a, b)))

/-- Every subset of a list of pairs, each once, as a sublist. -/
def subRels : List (OpId × OpId) → List (List (OpId × OpId))
  | [] => [[]]
  | q :: t => subRels t ++ (subRels t).map (fun r => q :: r)

/-- Modelled from the spec: `refinements()` enumerates every candidate order
over the same universe whose relation contains the existing edges and is a
valid strict order; the identity refinement (no added edges) is among them. -/
def refinements (p : Poset) : List Poset :=
  ((subRels (allPairs p.univ)).filter
      (fun r => p.rel.all (fun q => r.contains q) && validRel p.univ r)).map
    (fun r => { univ := p.univ, rel := r })

/-- Linear-extension test: every related pair appears in order in `l`. -/
def isLinearExt (p : Poset) (l : List OpId) : Bool :=
  p.rel.all (fun q => l.indexOf q.1 < l.indexOf q.2)

/-- Modelled from the spec: `all_topological_sorts()` enumerates every linear
extension of the order, as ordered identifier sequences. -/
def all_topological_sorts (p : Poset) : List (List OpId) :=
  p.univ.permutations'.filter (fun l => p.isLinearExt l)

end Poset

/-- A `History`: the set of operation identifiers, the labelling of each
identifier by an `Operation` (or, in restricted views, an `Instruction`), and
the partial order over the identifiers. -/
structure History (M A R : Type) where
  operations : List OpId
  label : List (OpId × Entry M A R)
  poset : Poset
deriving DecidableEq

/-- Label lookup, `self.label[op_id]` in the source.  A missing key would
raise `KeyError`; the model returns the default entry there. -/
def lookupEntry [Inhabited M] [Inhabited A]
    (label : List (OpId × Entry M A R)) (k : OpId) : Entry M A R :=
  match label.find? (fun kv => kv.1 == k) with
  | some kv => kv.2
  | none => default

/-- The identifier `"{process}.{index}"`. -/
def mkOpId (process : String) (i : Nat) : OpId :=
  process ++ "." ++ toString i

namespace History

/-- The chain edges of one process: `process.i` precedes `process.j` for all
`1 ≤ i < j ≤ n` (the transitive closure of the per-process program order the
constructor installs through `order_try`). -/
def chainPairs (process : String) (n : Nat) : List (OpId × OpId) :=
  (List.range n).flatMap (fun i =>
    (List.range n).filterMap (fun j =>
      if i < j then some (mkOpId process (i + 1), mkOpId process (j + 1)) else none))

/-- The constructor `History.__init__`: from a map of per-process operation sequences, build
the identifiers, the labelling (each operation stamped with its `op_id`) and
the program-order poset. -/
def init (data : List (String × List (Operation M A R))) : History M A R :=
  let ops := data.flatMap (fun pd =>
    (List.range pd.2.length).map (fun i => mkOpId pd.1 (i + 1)))
  { operations := ops
    label := data.flatMap (fun pd =>
      pd.2.enum.map (fun iop =>
        (mkOpId pd.1 (iop.1 + 1),
          Entry.op { iop.2 with op_id := some (mkOpId pd.1 (iop.1 + 1)) })))
    poset := { univ := ops, rel := data.flatMap (fun pd => chainPairs pd.1 pd.2.length) } }

/-- The method `History.causal_hist(op_id, ret_set)`: restrict to the predecessors of
`op_id` under the current order, and rebuild the labelling over all current
labels, hiding the return of every label whose identifier is not in
`ret_set`. -/
def causal_hist (h : History M A R) (op_id : OpId) (ret_set : List OpId) :
    History M A R :=
  let p := h.poset.predecessors op_id
  { operations := p
    poset := h.poset.subset p
    label := h.label.map (fun kv =>
      (kv.1, if ret_set.contains kv.1 then kv.2 else kv.2.hideRet)) }

/-- Statement-by-statement rendering of `causal_hist` with the receiver
threaded through: the source copies the receiver (`ch = deepcopy(self)`),
mutates only the copy, and returns it; the pair holds the receiver as left
after the call and the returned value. -/
def causal_hist_run (h : History M A R) (op_id : OpId) (ret_set : List OpId) :
    History M A R × History M A R :=
  let ch0 := h
  let p := ch0.poset.predecessors op_id
  let ch1 := { ch0 with operations := p }
  let ch2 := { ch1 with poset := ch1.poset.subset p }
  let ch3 := { ch2 with label := ch2.label.map (fun kv =>
      (kv.1, if ret_set.contains kv.1 then kv.2 else kv.2.hideRet)) }
  (h, ch3)

/-- The method `History.causal_arb(op_id, arb)`: filter `arb` to the causal predecessors
of `op_id`, truncate after `op_id`'s position, hide every return, then put
back the full label of `op_id` at its position.  (When `op_id` is absent from
the filtered list the source raises `ValueError` at `arb.index`; there the
model's `idxOf` is the list's length and the `set` is a no-op.) -/
def causal_arb [Inhabited M] [Inhabited A]
    (h : History M A R) (op_id : OpId) (arb : List OpId) : List (Entry M A R) :=
  let p := h.poset.predecessors op_id
  let arb2 := arb.filter (fun o => p.contains o)
  let idx := arb2.indexOf op_id
  let hist := (arb2.take (idx + 1)).map (fun o => (lookupEntry h.label o).hideRet)
  hist.set idx (lookupEntry h.label op_id)

end History

/-- The oracle interface: `start()` and the pure transition `step(state,
instr)`.  The source declares `step`'s argument as an `Instruction`; the
replay function passes each log entry through its instruction view. -/
structure Specification (M A R S : Type) where
  start : S
  step : S → Instruction M A → S × Operation M A R

/-- The loop body of `Specification.satisfies`, with the running oracle state
explicit: step over each entry; when the entry is a full `Operation` whose
recorded return differs from the computed one, return `false` at once. -/
def satisfiesFrom [DecidableEq R] (spec : Specification M A R S) :
    S → List (Entry M A R) → Bool
  | _, [] => true
  | s, e :: rest =>
    let r := spec.step s e.toInstruction
    match e with
    | .op o => if r.2.ret = o.ret then satisfiesFrom spec r.1 rest else false
    | .instr _ => satisfiesFrom spec r.1 rest

/-- The replay `Specification.satisfies(log)`: fold the oracle over the log from
`start()`. -/
def Specification.satisfies [DecidableEq R] (spec : Specification M A R S)
    (log : List (Entry M A R)) : Bool :=
  satisfiesFrom spec spec.start log

/-- The oracle state reached after folding `step` over a log from `s`. -/
def runState (spec : Specification M A R S) (s : S) (log : List (Entry M A R)) : S :=
  log.foldl (fun s e => (spec.step s e.toInstruction).1) s

/-- Argument of the reference key-value oracle: `wr` carries a `(key, value)`
pair, `rd` carries a key. -/
inductive RWArg (K V : Type) where
  | pair (key : K) (value : V)
  | key (key : K)
deriving DecidableEq

instance [Inhabited K] : Inhabited (RWArg K V) := ⟨.key default⟩

/-- The key-value oracle's state, an insertion-ordered key-value mapping. -/
abbrev RWState (K V : Type) := List (K × V)

/-- Pythonic `state.get(key)`: the value bound to `key`, or `none` if never written. -/
def rwGet [DecidableEq K] (s : RWState K V) (k : K) : Option V :=
  (s.find? (fun kv => kv.1 == k)).map (fun kv => kv.2)

/-- Pythonic dict union of the state with the new binding: the mapping with `key` now bound to `value`; an
existing binding is overridden in place, a new key is appended. -/
def rwUnion [DecidableEq K] (s : RWState K V) (k : K) (v : V) : RWState K V :=
  if s.any (fun kv => kv.1 == k) then
    s.map (fun kv => if kv.1 == k then (k, v) else kv)
  else s ++ [(k, v)]

/-- The transition of the reference key-value memory oracle: dispatch on the
method, destructure the argument.  `wr` extends the state and returns `none`;
`rd` leaves the state unchanged and returns the current binding (`none` when
never written — also the observable behaviour of `rd` on a pair argument,
which the running state never binds).  A `wr` with a non-pair argument or an
unknown method is a fatal defect in the source (`assert False` /
destructuring error); the model leaves the state unchanged with a `none`
return there. -/
def rwStep [DecidableEq K] (s : RWState K V) (i : Instruction String (RWArg K V)) :
    RWState K V × Operation String (RWArg K V) (Option V) :=
  if i.method = "wr" then
    match i.arg with
    | .pair k v =>
      (rwUnion s k v, { method := "wr", arg := i.arg, ret := none, op_id := none })
    | .key _ => (s, { method := "wr", arg := i.arg, ret := none, op_id := none })
  else if i.method = "rd" then
    match i.arg with
    | .key k => (s, { method := "rd", arg := i.arg, ret := rwGet s k, op_id := none })
    | .pair _ _ => (s, { method := "rd", arg := i.arg, ret := none, op_id := none })
  else (s, { method := i.method, arg := i.arg, ret := none, op_id := none })

/-- The `RWMemorySpecification` oracle: the reference key-value memory oracle — empty
initial state and the `rwStep` transition. -/
def RWMemorySpecification [DecidableEq K] :
    Specification String (RWArg K V) (Option V) (RWState K V) where
  start := []
  step := rwStep

/-- The `CCResult` record: verdict, witness order (as a history), and per-operation
witness serializations. -/
structure CCResult (M A R : Type) where
  is_CC : Bool
  causal_history : Option (History M A R)
  serializations : Option (List (OpId × List (Entry M A R)))
deriving DecidableEq

/-- The `CMResult` record: verdict, witness order, per-operation witness
serializations. -/
structure CMResult (M A R : Type) where
  is_CM : Bool
  causal_history : Option (History M A R)
  serializations : Option (List (OpId × List (Entry M A R)))
deriving DecidableEq

/-- The `CCvResult` record: verdict, witness order, witness arbitration, per-operation
witness serializations. -/
structure CCvResult (M A R : Type) where
  is_CCv : Bool
  causal_history : Option (History M A R)
  arbitration : Option (List (Entry M A R))
  serializations : Option (List (OpId × List (Entry M A R)))
deriving DecidableEq

/-- The causal view `check_CC` hands to the oracle for `op_id` under the
candidate order `co`: the history with `co` installed, restricted to
`op_id`'s causal past, revealing only `op_id`'s own return. -/
def ccView (h : History M A R) (co : Poset) (op_id : OpId) : History M A R :=
  ({ h with poset := co } : History M A R).causal_hist op_id [op_id]

/-- The causal view `check_CM` hands to the oracle for `op_id` under the
candidate order `co`: as in `check_CC`, but the revealed set is the
predecessor set of `op_id` in the original, unrefined poset of `h`. -/
def cmView (h : History M A R) (co : Poset) (op_id : OpId) : History M A R :=
  ({ h with poset := co } : History M A R).causal_hist op_id (h.poset.predecessors op_id)

/-- The log construction `log = [ch.label[op_id] for op_id in ro]`. -/
def logOf [Inhabited M] [Inhabited A] (ch : History M A R) (ro : List OpId) :
    List (Entry M A R) :=
  ro.map (fun o => lookupEntry ch.label o)

/-- The first satisfying serialization `check_CC` finds for `op_id` under
`co`, if any: the first linear extension of the restricted view whose replay
satisfies the oracle, rendered as its log. -/
def ccOpLog [DecidableEq R] [Inhabited M] [Inhabited A]
    (h : History M A R) (spec : Specification M A R S) (co : Poset) (op_id : OpId) :
    Option (List (Entry M A R)) :=
  let ch := ccView h co op_id
  ((ch.poset.all_topological_sorts).find?
      (fun ro => spec.satisfies (logOf ch ro))).map (fun ro => logOf ch ro)

/-- The first satisfying serialization `check_CM` finds for `op_id` under
`co`, if any. -/
def cmOpLog [DecidableEq R] [Inhabited M] [Inhabited A]
    (h : History M A R) (spec : Specification M A R S) (co : Poset) (op_id : OpId) :
    Option (List (Entry M A R)) :=
  let ch := cmView h co op_id
  ((ch.poset.all_topological_sorts).find?
      (fun ro => spec.satisfies (logOf ch ro))).map (fun ro => logOf ch ro)

/-- The checker `check_CC`: search the candidate orders for one under which every
operation has a satisfying serialization of its own causal past (with only
its own return revealed); on success return the order and the per-operation
logs, otherwise the all-absent failure record. -/
def check_CC [DecidableEq R] [Inhabited M] [Inhabited A]
    (h : History M A R) (spec : Specification M A R S) : CCResult M A R :=
  match (h.poset.refinements).find?
      (fun co => (co.elements).all (fun op_id => (ccOpLog h spec co op_id).isSome)) with
  | some co =>
    { is_CC := true
      causal_history := some { h with poset := co }
      serializations := some ((co.elements).filterMap
        (fun op_id => (ccOpLog h spec co op_id).map (fun l => (op_id, l)))) }
  | none => { is_CC := false, causal_history := none, serializations := none }

/-- The checker `check_CM`: as `check_CC`, but each operation's causal view reveals the
returns of all its program-order predecessors (computed from the original
poset of `h`). -/
def check_CM [DecidableEq R] [Inhabited M] [Inhabited A]
    (h : History M A R) (spec : Specification M A R S) : CMResult M A R :=
  match (h.poset.refinements).find?
      (fun co => (co.elements).all (fun op_id => (cmOpLog h spec co op_id).isSome)) with
  | some co =>
    { is_CM := true
      causal_history := some { h with poset := co }
      serializations := some ((co.elements).filterMap
        (fun op_id => (cmOpLog h spec co op_id).map (fun l => (op_id, l)))) }
  | none => { is_CM := false, causal_history := none, serializations := none }

/-- One operation's test inside `check_CCv`: replay the causal-arbitration
view of `op_id` under `arb` through the oracle. -/
def ccvOpOk [DecidableEq R] [Inhabited M] [Inhabited A]
    (h : History M A R) (spec : Specification M A R S) (co : Poset)
    (arb : List OpId) (op_id : OpId) : Bool :=
  spec.satisfies (({ h with poset := co } : History M A R).causal_arb op_id arb)

/-- The checker `check_CCv`: search the candidate orders and, within each, the linear
extensions (`arb`) for one under which every operation's causal-arbitration
view satisfies the oracle; on success return the order, the arbitration
(labels of `arb` in the original history) and the per-operation logs. -/
def check_CCv [DecidableEq R] [Inhabited M] [Inhabited A]
    (h : History M A R) (spec : Specification M A R S) : CCvResult M A R :=
  match (h.poset.refinements).findSome? (fun co =>
      ((co.all_topological_sorts).find?
          (fun arb => (co.elements).all (ccvOpOk h spec co arb))).map
        (fun arb => (co, arb))) with
  | some (co, arb) =>
    { is_CCv := true
      causal_history := some { h with poset := co }
      arbitration := some (arb.map (fun s => lookupEntry h.label s))
      serializations := some ((co.elements).map
        (fun op_id => (op_id, ({ h with poset := co } : History M A R).causal_arb op_id arb))) }
  | none =>
    { is_CCv := false, causal_history := none, arbitration := none, serializations := none }

/-- The comparison definition for the relation between `check_CC` and
`check_CM`, following the spec's words: the common outer structure of the
two checkers, parametrised by the one place they differ — the revealed set
handed to `causal_hist` for each focused operation. -/
def coreOpLog [DecidableEq R] [Inhabited M] [Inhabited A]
    (retSetOf : History M A R → Poset → OpId → List OpId)
    (h : History M A R) (spec : Specification M A R S) (co : Poset) (op_id : OpId) :
    Option (List (Entry M A R)) :=
  let ch := ({ h with poset := co } : History M A R).causal_hist op_id (retSetOf h co op_id)
  ((ch.poset.all_topological_sorts).find?
      (fun ro => spec.satisfies (logOf ch ro))).map (fun ro => logOf ch ro)

/-- The shared outer search of `check_CC`/`check_CM`, parametrised by the
revealed set; result as a bare triple (verdict, witness order, witness
serializations). -/
def checkCore [DecidableEq R] [Inhabited M] [Inhabited A]
    (retSetOf : History M A R → Poset → OpId → List OpId)
    (h : History M A R) (spec : Specification M A R S) :
    Bool × Option (History M A R) × Option (List (OpId × List (Entry M A R))) :=
  match (h.poset.refinements).find?
      (fun co => (co.elements).all
        (fun op_id => (coreOpLog retSetOf h spec co op_id).isSome)) with
  | some co =>
    (true, some { h with poset := co },
      some ((co.elements).filterMap
        (fun op_id => (coreOpLog retSetOf h spec co op_id).map (fun l => (op_id, l)))))
  | none => (false, none, none)

/-- The revealed set `check_CC` uses: only the focused operation itself. -/
def ccRetSet (h : History M A R) (co : Poset) (op_id : OpId) : List OpId := [op_id]

/-- The revealed set `check_CM` uses: every predecessor of the focused
operation in the original, unrefined poset of the input history. -/
def cmRetSet (h : History M A R) (co : Poset) (op_id : OpId) : List OpId :=
  h.poset.predecessors op_id

/-- The sequence `arb` filtered to the causal predecessors of `op_id`, as `causal_arb`
computes it. -/
def filteredArb (h : History M A R) (op_id : OpId) (arb : List OpId) : List OpId :=
  arb.filter (fun o => (h.poset.predecessors op_id).contains o)

/-- Equality of two identifier lists as sets, the sense in which the source
compares `label.keys()`, `operations` and `poset.elements()`. -/
def sameSet (a b : List OpId) : Bool :=
  a.all (fun x => b.contains x) && b.all (fun x => a.contains x)

/-- Entrywise agreement of two log entries on everything except `op_id`:
same kind (bare instruction or full operation), same method, same argument,
and for full operations the same recorded return. -/
def entryAgrees [DecidableEq M] [DecidableEq A] [DecidableEq R] :
    Entry M A R → Entry M A R → Bool
  | .instr i1, .instr i2 => decide (i1.method = i2.method) && decide (i1.arg = i2.arg)
  | .op o1, .op o2 =>
    decide (o1.method = o2.method) && decide (o1.arg = o2.arg) && decide (o1.ret = o2.ret)
  | _, _ => false

/-- Two logs agree entrywise on method, argument, recorded return and entry
kind, possibly differing arbitrarily in the entries' `op_id` fields. -/
def logsAgreeModOpId [DecidableEq M] [DecidableEq A] [DecidableEq R] :
    List (Entry M A R) → List (Entry M A R) → Bool
  | [], [] => true
  | e1 :: t1, e2 :: t2 => entryAgrees e1 e2 && logsAgreeModOpId t1 t2
  | _, _ => false

/-- The reference oracle at string keys and natural-number values. -/
def rwStringNat :
    Specification String (RWArg String Nat) (Option Nat) (RWState String Nat) :=
  RWMemorySpecification

/-- The two-process history `P1 = [wr(x,1)]`, `P2 = [rd(x)]` where the read's
recorded return is `2`, a value never written. -/
def hReadTwo : History String (RWArg String Nat) (Option Nat) :=
  History.init
    [("P1", [{ method := "wr", arg := .pair "x" 1, ret := none }]),
     ("P2", [{ method := "rd", arg := .key "x", ret := some 2 }])]

/-- The two-process history `P1 = [wr(x,1)]`, `P2 = [rd(x)]` where the read's
recorded return is the written value `1`. -/
def hReadOne : History String (RWArg String Nat) (Option Nat) :=
  History.init
    [("P1", [{ method := "wr", arg := .pair "x" 1, ret := none }]),
     ("P2", [{ method := "rd", arg := .key "x", ret := some 1 }])]

/-- A one-process history with two operations, `P1 = [wr(x,1), rd(x)]`. -/
def hTwoOps : History String (RWArg String Nat) (Option Nat) :=
  History.init
    [("P1", [{ method := "wr", arg := .pair "x" 1, ret := none },
             { method := "rd", arg := .key "x", ret := some 1 }])]

/-- A well-formed write-then-read log in which the read observes the written
value; entries carry assorted `op_id`s. -/
def logW : List (Entry String (RWArg String Nat) (Option Nat)) :=
  [.op { method := "wr", arg := .pair "x" 1, ret := none, op_id := some "P1.1" },
   .op { method := "rd", arg := .key "x", ret := some 1, op_id := none }]

/-- The log `logW` with all `op_id` fields replaced by different values. -/
def logW2 : List (Entry String (RWArg String Nat) (Option Nat)) :=
  [.op { method := "wr", arg := .pair "x" 1, ret := none, op_id := none },
   .op { method := "rd", arg := .key "x", ret := some 1, op_id := some "q.9" }]

/-- The first operation of `logW`. -/
def opW : Operation String (RWArg String Nat) (Option Nat) :=
  { method := "wr", arg := .pair "x" 1, ret := none, op_id := some "P1.1" }

lemma contains_iff {α : Type} [BEq α] [LawfulBEq α] (l : List α) (a : α) :
    l.contains a = true ↔ a ∈ l := by
  simp [List.contains]

/-- Unfolding lemma for `rwGet` on a nonempty state. -/
lemma rwGet_cons [DecidableEq K] (a : K) (b : V) (tl : RWState K V) (k : K) :
    rwGet ((a, b) :: tl) k = if a = k then some b else rwGet tl k := by
  by_cases h : a = k
  · simp [rwGet, List.find?_cons_of_pos, h]
  · have hb : ¬((a, b).1 == k) = true := by simp [h]
    simp [rwGet, List.find?_cons_of_neg _ hb, h]

/-- Looking a key up after a per-element override. -/
lemma rwGet_map_override [DecidableEq K] (s : RWState K V) (k k' : K) (v : V) :
    rwGet (s.map (fun kv => if kv.1 == k then (k, v) else kv)) k' =
      if k' = k then (if s.any (fun kv => kv.1 == k) then some v else none)
      else rwGet s k' := by
  induction s with
  | nil => by_cases hk : k' = k <;> simp [rwGet, hk]
  | cons hd tl ih =>
    obtain ⟨a, b⟩ := hd
    simp only [beq_iff_eq] at ih ⊢
    by_cases ha : a = k
    · subst ha
      by_cases hk : k' = a
      · subst hk
        simp [rwGet_cons, ih]
      · have ha' : a ≠ k' := fun h => hk h.symm
        simp [rwGet_cons, ih, hk, ha']
    · by_cases hk : k' = k
      · subst hk
        by_cases ha' : a = k'
        · exact absurd ha' ha
        · have hb : (a == k') = false := by simp [ha']
          simp only [List.map_cons, if_neg ha', rwGet_cons, ih, eq_self_iff_true,
            if_true, List.any_cons, hb, Bool.false_or]
      · by_cases ha' : a = k'
        · have hb : (a == k) = false := by simp [ha]
          simp [rwGet_cons, ha, ha', hk, hb]
        · simp [rwGet_cons, ha, ha', ih, hk]

/-- Looking a key up after appending a single binding. -/
lemma rwGet_append_single [DecidableEq K] (s : RWState K V) (k k' : K) (v : V) :
    rwGet (s ++ [(k, v)]) k' =
      match rwGet s k' with
      | some w => some w
      | none => if k' = k then some v else none := by
  induction s with
  | nil =>
    by_cases hk : k' = k
    · subst hk
      simp [rwGet, rwGet_cons]
    · have : k ≠ k' := fun h => hk h.symm
      simp [rwGet, rwGet_cons, this, hk]
  | cons hd tl ih =>
    obtain ⟨a, b⟩ := hd
    by_cases ha : a = k'
    · simp [rwGet_cons, ha]
    · simp [rwGet_cons, ha, ih]

/-- A key absent from every binding looks up to `none`. -/
lemma rwGet_eq_none_of_not_any [DecidableEq K] (s : RWState K V) (k : K)
    (h : s.any (fun kv => kv.1 == k) = false) : rwGet s k = none := by
  induction s with
  | nil => rfl
  | cons hd tl ih =>
    obtain ⟨a, b⟩ := hd
    simp only [List.any_cons, Bool.or_eq_false_iff] at h
    have ha : a ≠ k := by
      intro hak
      simp [hak] at h
    simp [rwGet_cons, ha, ih h.2]

/-- The state after `wr(key, value)` binds `key` to `value` and leaves every
other key's binding unchanged. -/
lemma rwGet_rwUnion [DecidableEq K] (s : RWState K V) (k k' : K) (v : V) :
    rwGet (rwUnion s k v) k' = if k' = k then some v else rwGet s k' := by
  unfold rwUnion
  by_cases hany : s.any (fun kv => kv.1 == k) = true
  · rw [if_pos hany, rwGet_map_override, hany]
    by_cases hk : k' = k <;> simp [hk]
  · have hany' : s.any (fun kv => kv.1 == k) = false := by
      revert hany
      cases s.any (fun kv => kv.1 == k) <;> simp
    rw [if_neg (by simp [hany']), rwGet_append_single]
    by_cases hk : k' = k
    · subst hk
      rw [rwGet_eq_none_of_not_any s k' hany']
    · cases hg : rwGet s k' <;> simp [hk]

/-- C6.  The reference key-value oracle: `wr(key, value)` steps to the state
with `key` bound to `value` (all other bindings untouched) and an operation
returning `none`; `rd(key)` leaves the state unchanged and returns the
current binding of `key`, `none` when never written. -/
theorem rw_memory_step_spec [DecidableEq K] (s : RWState K V) (k : K) (v : V)
    (oid : Option OpId) :
    (RWMemorySpecification.step s { method := "wr", arg := RWArg.pair k v, op_id := oid } =
      (rwUnion s k v,
        { method := "wr", arg := RWArg.pair k v, ret := none, op_id := none })) ∧
    (∀ k', rwGet (rwUnion s k v) k' = if k' = k then some v else rwGet s k') ∧
    (RWMemorySpecification.step s { method := "rd", arg := RWArg.key k, op_id := oid } =
      (s, { method := "rd", arg := RWArg.key k, ret := rwGet s k, op_id := none })) ∧
    rwGet ([] : RWState K V) k = none :=
  ⟨rfl, fun k' => rwGet_rwUnion s k k' v, rfl, rfl⟩

/-- C9.  `causal_hist` never mutates its receiver: rendering the method's
statements with the receiver threaded through, the receiver after the call
is the original history unchanged, and the returned view is a separate value
equal to `causal_hist`'s result. -/
theorem causal_hist_frame (h : History M A R) (op_id : OpId) (ret_set : List OpId) :
    (h.causal_hist_run op_id ret_set).1 = h ∧
    (h.causal_hist_run op_id ret_set).2 = h.causal_hist op_id ret_set :=
  ⟨rfl, rfl⟩

/-- C7.  On the two-process history `P1 = [wr(x,1)]`, `P2 = [rd(x)▷2]`, where
the read returns a value never written, `check_CC` with the reference
key-value oracle returns failure. -/
theorem check_CC_unjustified_read_fails :
    (check_CC hReadTwo rwStringNat).is_CC = false := by decide

/-- The replay verdict from an arbitrary starting state, characterised
declaratively: true exactly when every full-`Operation` entry's recorded
return matches the return the oracle computes for it at its position. -/
lemma satisfiesFrom_iff [DecidableEq R] (spec : Specification M A R S) :
    ∀ (log : List (Entry M A R)) (s : S),
      satisfiesFrom spec s log = true ↔
        ∀ (i : Fin log.length) (o : Operation M A R), log.get i = Entry.op o →
          (spec.step (runState spec s (log.take i.1)) o.to_instruction).2.ret = o.ret := by
  intro log
  induction log with
  | nil =>
    intro s
    constructor
    · intro _ i
      exact absurd i.isLt (by simp)
    · intro _
      rfl
  | cons e t ih =>
    intro s
    cases e with
    | instr i0 =>
      show satisfiesFrom spec ((spec.step s i0).1) t = true ↔ _
      rw [ih]
      constructor
      · intro h i o hget
        cases i using Fin.cases with
        | zero => simp [List.get] at hget
        | succ j =>
          have := h j o (by simpa using hget)
          simpa [runState] using this
      · intro h j o hget
        have := h j.succ o (by simpa using hget)
        simpa [runState] using this
    | op o0 =>
      by_cases hc : (spec.step s o0.to_instruction).2.ret = o0.ret
      · have hl : satisfiesFrom spec s (Entry.op o0 :: t) =
            satisfiesFrom spec ((spec.step s o0.to_instruction).1) t := by
          simp [satisfiesFrom, Entry.toInstruction, hc]
        rw [hl, ih]
        constructor
        · intro h i o hget
          cases i using Fin.cases with
          | zero =>
            have ho : Entry.op o0 = Entry.op o := by simpa [List.get] using hget
            cases ho
            simpa [runState] using hc
          | succ j =>
            have := h j o (by simpa using hget)
            simpa [runState] using this
        · intro h j o hget
          have := h j.succ o (by simpa using hget)
          simpa [runState] using this
      · have hl : satisfiesFrom spec s (Entry.op o0 :: t) = false := by
          simp [satisfiesFrom, Entry.toInstruction, hc]
        rw [hl]
        constructor
        · intro h
          exact absurd h (by simp)
        · intro h
          exfalso
          apply hc
          have := h ⟨0, by simp⟩ o0 (by simp [List.get])
          simpa [runState] using this
    
/-- C1.  `Specification.satisfies` is the deterministic left fold from
`start()`: its verdict is `true` exactly when no full-`Operation` entry of
the log has a computed return (from `step` at that entry's position) that
differs from the recorded one; bare `Instruction` entries only advance the
state and are never cross-checked. -/
theorem satisfies_iff_no_mismatch [DecidableEq R] (spec : Specification M A R S)
    (log : List (Entry M A R)) :
    spec.satisfies log = true ↔
      ∀ (i : Fin log.length) (o : Operation M A R), log.get i = Entry.op o →
        (spec.step (runState spec spec.start (log.take i.1)) o.to_instruction).2.ret =
          o.ret :=
  satisfiesFrom_iff spec log spec.start

/-- Witness for C1: instantiated on a concrete write-then-read log that
satisfies the reference oracle, the characterisation yields the concrete
no-mismatch fact at position 0. -/
theorem satisfies_iff_no_mismatch_witness :
    (rwStringNat.step (runState rwStringNat rwStringNat.start (logW.take 0))
        opW.to_instruction).2.ret = opW.ret :=
  (satisfies_iff_no_mismatch rwStringNat logW).mp (by decide) ⟨0, by decide⟩ opW (by decide)

/-- C8.  Each checker, when it finds no satisfying candidate, returns the
structured failure record: success flag false and every witness field
absent. -/
theorem checkers_fail_without_witnesses [DecidableEq R] [Inhabited M] [Inhabited A]
    (h : History M A R) (spec : Specification M A R S) :
    ((check_CC h spec).is_CC = false →
      (check_CC h spec).causal_history = none ∧ (check_CC h spec).serializations = none) ∧
    ((check_CM h spec).is_CM = false →
      (check_CM h spec).causal_history = none ∧ (check_CM h spec).serializations = none) ∧
    ((check_CCv h spec).is_CCv = false →
      (check_CCv h spec).causal_history = none ∧ (check_CCv h spec).arbitration = none ∧
        (check_CCv h spec).serializations = none) := by
  refine ⟨?_, ?_, ?_⟩
  · unfold check_CC
    cases (h.poset.refinements).find?
        (fun co => (co.elements).all (fun op_id => (ccOpLog h spec co op_id).isSome)) with
    | none => simp
    | some co => simp
  · unfold check_CM
    cases (h.poset.refinements).find?
        (fun co => (co.elements).all (fun op_id => (cmOpLog h spec co op_id).isSome)) with
    | none => simp
    | some co => simp
  · unfold check_CCv
    cases (h.poset.refinements).findSome? (fun co =>
        ((co.all_topological_sorts).find?
            (fun arb => (co.elements).all (ccvOpOk h spec co arb))).map
          (fun arb => (co, arb))) with
    | none => simp
    | some p =>
      obtain ⟨co, arb⟩ := p
      simp

/-- Witness for C8: on the concrete unjustifiable-read history, all three
checkers fail and every witness field of their results is absent. -/
theorem checkers_fail_without_witnesses_witness :
    ((check_CC hReadTwo rwStringNat).causal_history = none ∧
      (check_CC hReadTwo rwStringNat).serializations = none) ∧
    ((check_CM hReadTwo rwStringNat).causal_history = none ∧
      (check_CM hReadTwo rwStringNat).serializations = none) ∧
    ((check_CCv hReadTwo rwStringNat).causal_history = none ∧
      (check_CCv hReadTwo rwStringNat).arbitration = none ∧
      (check_CCv hReadTwo rwStringNat).serializations = none) :=
  ⟨(checkers_fail_without_witnesses hReadTwo rwStringNat).1 (by decide),
   (checkers_fail_without_witnesses hReadTwo rwStringNat).2.1 (by decide),
   (checkers_fail_without_witnesses hReadTwo rwStringNat).2.2 (by decide)⟩

/-- The key-value oracle's transition reads only the method and argument of
an instruction, never its `op_id`. -/
lemma rwStep_opid_irrelevant [DecidableEq K] (s : RWState K V)
    (i1 i2 : Instruction String (RWArg K V))
    (hm : i1.method = i2.method) (ha : i1.arg = i2.arg) :
    rwStep s i1 = rwStep s i2 := by
  obtain ⟨m1, a1, x1⟩ := i1
  obtain ⟨m2, a2, x2⟩ := i2
  simp only at hm ha
  subst hm
  subst ha
  rfl

/-- The replay of the key-value oracle from any state returns the same
verdict on two logs that agree entrywise up to `op_id`. -/
lemma rw_satisfiesFrom_agrees [DecidableEq K] [DecidableEq V] :
    ∀ (l1 l2 : List (Entry String (RWArg K V) (Option V))) (s : RWState K V),
      logsAgreeModOpId l1 l2 = true →
      satisfiesFrom RWMemorySpecification s l1 =
        satisfiesFrom RWMemorySpecification s l2 := by
  intro l1
  induction l1 with
  | nil =>
    intro l2 s hag
    cases l2 with
    | nil => rfl
    | cons e t => exact Bool.noConfusion hag
  | cons e1 t1 ih =>
    intro l2 s hag
    cases l2 with
    | nil => exact Bool.noConfusion hag
    | cons e2 t2 =>
      simp only [logsAgreeModOpId, Bool.and_eq_true] at hag
      obtain ⟨hent, htail⟩ := hag
      cases e1 with
      | instr i1 =>
        cases e2 with
        | instr i2 =>
          simp only [entryAgrees, Bool.and_eq_true, decide_eq_true_eq] at hent
          have hstep : rwStep s i1 = rwStep s i2 :=
            rwStep_opid_irrelevant s i1 i2 hent.1 hent.2
          show satisfiesFrom RWMemorySpecification (rwStep s i1).1 t1 = _
          rw [hstep]
          exact ih t2 _ htail
        | op o2 => simp [entryAgrees] at hent
      | op o1 =>
        cases e2 with
        | instr i2 => simp [entryAgrees] at hent
        | op o2 =>
          simp only [entryAgrees, Bool.and_eq_true, decide_eq_true_eq] at hent
          obtain ⟨⟨hm, harg⟩, hret⟩ := hent
          have hstep : rwStep s o1.to_instruction = rwStep s o2.to_instruction :=
            rwStep_opid_irrelevant s _ _ hm harg
          show (if (rwStep s o1.to_instruction).2.ret = o1.ret then
              satisfiesFrom RWMemorySpecification (rwStep s o1.to_instruction).1 t1
            else false) =
            (if (rwStep s o2.to_instruction).2.ret = o2.ret then
              satisfiesFrom RWMemorySpecification (rwStep s o2.to_instruction).1 t2
            else false)
          rw [hstep, hret]
          by_cases hcond : (rwStep s o2.to_instruction).2.ret = o2.ret
          · simp only [if_pos hcond]
            exact ih t2 _ htail
          · simp [if_neg hcond]

/-- C10.  For the reference key-value oracle, the verdict of `satisfies`
depends only on each entry's kind, method, argument and recorded return:
two logs agreeing entrywise on those fields (with arbitrary `op_id`s)
receive the same verdict. -/
theorem rw_satisfies_opid_noninterference [DecidableEq K] [DecidableEq V]
    (l1 l2 : List (Entry String (RWArg K V) (Option V)))
    (hag : logsAgreeModOpId l1 l2 = true) :
    Specification.satisfies RWMemorySpecification l1 =
      Specification.satisfies RWMemorySpecification l2 :=
  rw_satisfiesFrom_agrees l1 l2 _ hag

/-- Witness for C10: two concrete logs differing only in `op_id` fields get
the same verdict. -/
theorem rw_satisfies_opid_noninterference_witness :
    logsAgreeModOpId logW logW2 = true ∧
    Specification.satisfies RWMemorySpecification logW =
      Specification.satisfies RWMemorySpecification logW2 :=
  ⟨by decide, rw_satisfies_opid_noninterference logW logW2 (by decide)⟩

/-- Counterexample to C4: on a causal view returned by `causal_hist`, the
label keys are not the operation set — the comprehension in the source
rebuilds the labels over all original keys, not only the restricted ones. -/
theorem causal_hist_label_keys_counterexample :
    sameSet ((hTwoOps.causal_hist "P1.1" ["P1.1"]).label.map Prod.fst)
      ((hTwoOps.causal_hist "P1.1" ["P1.1"]).operations) = false := by decide

/-- Mapping over an enumeration by index only is mapping over the range of
the length. -/
lemma enum_map_fst_comp {α β : Type} (l : List α) (g : Nat → β) :
    l.enum.map (fun iop => g iop.1) = (List.range l.length).map g := by
  rw [show (fun iop : Nat × α => g iop.1) = (g ∘ Prod.fst) from rfl, ← List.map_map,
    List.enum_map_fst]

/-- C4, amended.  A freshly constructed history satisfies the full invariant
`label.keys() == operations == poset.elements()`; a history returned by
`causal_hist` satisfies only `operations == poset.elements()` together with
`operations ⊆ label.keys()` (when the receiver's universe is covered by its
label keys) — its label keys are a superset, not equal. -/
theorem history_invariant_amended :
    (∀ (data : List (String × List (Operation M A R))),
      (History.init data).label.map Prod.fst = (History.init data).operations ∧
      (History.init data).operations = (History.init data).poset.univ) ∧
    (∀ (h : History M A R) (op_id : OpId) (ret_set : List OpId),
      (h.causal_hist op_id ret_set).operations =
        (h.causal_hist op_id ret_set).poset.univ ∧
      (h.poset.univ.all (fun x => (h.label.map Prod.fst).contains x) = true →
        ∀ x, x ∈ (h.causal_hist op_id ret_set).operations →
          x ∈ (h.causal_hist op_id ret_set).label.map Prod.fst)) := by
  constructor
  · intro data
    constructor
    · show (data.flatMap (fun pd => pd.2.enum.map (fun iop =>
            (mkOpId pd.1 (iop.1 + 1),
              Entry.op { iop.2 with op_id := some (mkOpId pd.1 (iop.1 + 1)) })))).map
          Prod.fst =
        data.flatMap (fun pd =>
          (List.range pd.2.length).map (fun i => mkOpId pd.1 (i + 1)))
      rw [List.map_flatMap]
      congr 1
      funext pd
      rw [List.map_map]
      exact enum_map_fst_comp pd.2 (fun i => mkOpId pd.1 (i + 1))
    · rfl
  · intro h op_id ret_set
    constructor
    · show h.poset.predecessors op_id =
        h.poset.univ.filter (fun x => (h.poset.predecessors op_id).contains x)
      unfold Poset.predecessors
      apply Eq.symm
      apply List.filter_congr
      intro x hx
      by_cases hf : (h.poset.ltb x op_id || x == op_id) = true
      · rw [hf]
        exact (contains_iff _ _).mpr (List.mem_filter.mpr ⟨hx, hf⟩)
      · have hf' : (h.poset.ltb x op_id || x == op_id) = false :=
          Bool.eq_false_iff.mpr hf
        rw [hf']
        apply Bool.eq_false_iff.mpr
        intro hc
        have := List.mem_filter.mp ((contains_iff _ _).mp hc)
        exact hf this.2
    · intro hcov x hx
      have hxu : x ∈ h.poset.univ := List.mem_filter.mp hx |>.1
      have hkeys : x ∈ h.label.map Prod.fst := by
        have := List.all_eq_true.mp hcov x hxu
        exact (contains_iff _ _).mp this
      show x ∈ (h.label.map _).map Prod.fst
      rw [List.map_map]
      exact hkeys

/-- Witness for the amended C4: on a concrete restricted view, the operation
set equals the order's universe and is contained in the label keys. -/
theorem history_invariant_amended_witness :
    (hTwoOps.causal_hist "P1.1" ["P1.1"]).operations =
      (hTwoOps.causal_hist "P1.1" ["P1.1"]).poset.univ ∧
    "P1.1" ∈ (hTwoOps.causal_hist "P1.1" ["P1.1"]).label.map Prod.fst :=
  ⟨(history_invariant_amended.2 hTwoOps "P1.1" ["P1.1"]).1,
   (history_invariant_amended.2 hTwoOps "P1.1" ["P1.1"]).2 (by decide) "P1.1" (by decide)⟩

/-- Setting the element at the index of `a` in the truncated mapped list
replaces the final mapped element. -/
lemma take_indexOf_set {β : Type} (l : List OpId) (a : OpId) (ha : a ∈ l)
    (f : OpId → β) (b : β) :
    ((l.take (l.indexOf a + 1)).map f).set (l.indexOf a) b =
      (l.take (l.indexOf a)).map f ++ [b] := by
  induction l with
  | nil => cases ha
  | cons hd tl ih =>
    by_cases hhd : hd = a
    · subst hhd
      simp [List.indexOf_cons]
    · have hne : (hd == a) = false := by simp [hhd]
      have ha' : a ∈ tl := by
        cases ha with
        | head => exact absurd rfl hhd
        | tail _ h => exact h
      simp only [List.indexOf_cons, hne, Bool.cond_false, List.take_succ_cons,
        List.map_cons, List.set_cons_succ, List.cons_append]
      rw [ih ha']

/-- C5.  `causal_arb(op_id, arb)` is the order-preserving restriction of
`arb` to the causal predecessors of `op_id`, truncated right after `op_id`,
with every earlier element rendered return-hiding and the final element the
full label of `op_id`. -/
theorem causal_arb_spec [Inhabited M] [Inhabited A] (h : History M A R)
    (op_id : OpId) (arb : List OpId)
    (hu : op_id ∈ h.poset.univ) (ha : op_id ∈ arb) :
    h.causal_arb op_id arb =
      ((filteredArb h op_id arb).take ((filteredArb h op_id arb).indexOf op_id)).map
        (fun o => (lookupEntry h.label o).hideRet) ++ [lookupEntry h.label op_id] ∧
    (h.causal_arb op_id arb).getLast? = some (lookupEntry h.label op_id) ∧
    List.Sublist
      ((filteredArb h op_id arb).take ((filteredArb h op_id arb).indexOf op_id + 1)) arb ∧
    (∀ o ∈ filteredArb h op_id arb, o ∈ h.poset.predecessors op_id) := by
  have hp : op_id ∈ h.poset.predecessors op_id :=
    List.mem_filter.mpr ⟨hu, by simp⟩
  have hmem : op_id ∈ filteredArb h op_id arb :=
    List.mem_filter.mpr ⟨ha, (contains_iff _ _).mpr hp⟩
  have heq : h.causal_arb op_id arb =
      ((filteredArb h op_id arb).take ((filteredArb h op_id arb).indexOf op_id)).map
        (fun o => (lookupEntry h.label o).hideRet) ++ [lookupEntry h.label op_id] :=
    take_indexOf_set (filteredArb h op_id arb) op_id hmem _ _
  refine ⟨heq, ?_, ?_, ?_⟩
  · rw [heq]
    exact List.getLast?_concat _
  · exact List.Sublist.trans (List.take_sublist _ _) (List.filter_sublist _)
  · intro o ho
    exact (contains_iff _ _).mp (List.mem_filter.mp ho).2

/-- Witness for C5: on a concrete two-operation history the last element of
`causal_arb` is the full label of the focused operation. -/
theorem causal_arb_spec_witness :
    (hTwoOps.causal_arb "P1.2" ["P1.1", "P1.2"]).getLast? =
      some (lookupEntry hTwoOps.label "P1.2") :=
  (causal_arb_spec hTwoOps "P1.2" ["P1.1", "P1.2"] (by decide) (by decide)).2.1

lemma lookupEntry_nil [Inhabited M] [Inhabited A] (o : OpId) :
    lookupEntry ([] : List (OpId × Entry M A R)) o = default := rfl

/-- Unfolding lemma for `lookupEntry` on a nonempty labelling. -/
lemma lookupEntry_cons [Inhabited M] [Inhabited A] (kv : OpId × Entry M A R)
    (t : List (OpId × Entry M A R)) (o : OpId) :
    lookupEntry (kv :: t) o = if kv.1 == o then kv.2 else lookupEntry t o := by
  by_cases hk : (kv.1 == o) = true
  · simp [lookupEntry, List.find?_cons_of_pos _ hk, hk]
  · have hk' : ¬((fun kv : OpId × Entry M A R => kv.1 == o) kv = true) := hk
    simp only [lookupEntry, List.find?_cons_of_neg _ hk']
    simp [hk]

/-- Hiding the return of the default entry is the default entry. -/
lemma hideRet_default [Inhabited M] [Inhabited A] :
    (default : Entry M A R).hideRet = default := rfl

/-- Label lookup after `causal_hist`'s rebuild of the labelling: the original
entry when the identifier is in the revealed set, its return-hiding form
otherwise. -/
lemma lookupEntry_map_hide [Inhabited M] [Inhabited A]
    (label : List (OpId × Entry M A R)) (rs : List OpId) (o : OpId) :
    lookupEntry (label.map (fun kv =>
        (kv.1, if rs.contains kv.1 then kv.2 else kv.2.hideRet))) o =
      (if rs.contains o then lookupEntry label o else (lookupEntry label o).hideRet) := by
  induction label with
  | nil =>
    by_cases hr : rs.contains o <;> simp [lookupEntry_nil, hr, hideRet_default]
  | cons kv t ih =>
    by_cases hk : (kv.1 == o) = true
    · have hk' : kv.1 = o := by simpa using hk
      subst hk'
      by_cases hr : rs.contains kv.1 = true <;>
        simp [List.map_cons, lookupEntry_cons, hr]
    · simp only [List.map_cons, lookupEntry_cons, hk, Bool.false_eq_true, if_false, ih]

/-- C3.  `check_CM`'s causal view for each focused operation takes its
universe (and sub-order) from the candidate order under test, while the set
of operations whose returns it reveals is the predecessor set from the
original, unrefined poset of the input history; `check_CC`'s view is built
identically except that it reveals only the focused operation's own return;
and both checkers are the one shared search instantiated at those two
revealed-set choices. -/
theorem cm_cc_views_and_structure [DecidableEq R] [Inhabited M] [Inhabited A]
    (h : History M A R) (spec : Specification M A R S) :
    (∀ (co : Poset) (op_id : OpId),
      (cmView h co op_id).operations = co.predecessors op_id ∧
      (cmView h co op_id).poset = co.subset (co.predecessors op_id) ∧
      (ccView h co op_id).operations = (cmView h co op_id).operations ∧
      (ccView h co op_id).poset = (cmView h co op_id).poset ∧
      (∀ o, lookupEntry (cmView h co op_id).label o =
        (if (h.poset.predecessors op_id).contains o then lookupEntry h.label o
         else (lookupEntry h.label o).hideRet)) ∧
      (∀ o, lookupEntry (ccView h co op_id).label o =
        (if [op_id].contains o then lookupEntry h.label o
         else (lookupEntry h.label o).hideRet))) ∧
    ((check_CM h spec).is_CM, (check_CM h spec).causal_history,
      (check_CM h spec).serializations) = checkCore cmRetSet h spec ∧
    ((check_CC h spec).is_CC, (check_CC h spec).causal_history,
      (check_CC h spec).serializations) = checkCore ccRetSet h spec := by
  refine ⟨?_, ?_, ?_⟩
  · intro co op_id
    exact ⟨rfl, rfl, rfl, rfl,
      fun o => lookupEntry_map_hide h.label (h.poset.predecessors op_id) o,
      fun o => lookupEntry_map_hide h.label [op_id] o⟩
  · have hrw : ∀ (co : Poset) (op_id : OpId),
        coreOpLog cmRetSet h spec co op_id = cmOpLog h spec co op_id := fun _ _ => rfl
    unfold check_CM checkCore
    simp only [hrw]
    cases (h.poset.refinements).find?
        (fun co => (co.elements).all (fun op_id => (cmOpLog h spec co op_id).isSome)) with
    | none => rfl
    | some co => rfl
  · have hrw : ∀ (co : Poset) (op_id : OpId),
        coreOpLog ccRetSet h spec co op_id = ccOpLog h spec co op_id := fun _ _ => rfl
    unfold check_CC checkCore
    simp only [hrw]
    cases (h.poset.refinements).find?
        (fun co => (co.elements).all (fun op_id => (ccOpLog h spec co op_id).isSome)) with
    | none => rfl
    | some co => rfl

/-- The instruction view is unchanged by hiding the return. -/
lemma toInstruction_hideRet (e : Entry M A R) :
    e.hideRet.toInstruction = e.toInstruction := by
  cases e <;> rfl

/-- The instruction view is unchanged by a conditional return-hiding. -/
lemma toInstruction_if_hide (c : Prop) [Decidable c] (e : Entry M A R) :
    (if c then e else e.hideRet).toInstruction = e.toInstruction := by
  by_cases h : c <;> simp [h, toInstruction_hideRet]

/-- A return-hiding entry is never a full operation. -/
lemma hideRet_ne_op (e : Entry M A R) (o : Operation M A R) :
    e.hideRet ≠ Entry.op o := by
  cases e <;> simp [Entry.hideRet]

/-- Replay monotonicity: hiding returns only removes checks.  If two logs
have pointwise equal instruction views and every full operation of the
second is the same full operation in the first, a successful replay of the
first is a successful replay of the second. -/
lemma satisfiesFrom_mono [DecidableEq R] (spec : Specification M A R S)
    (l1 l2 : List (Entry M A R))
    (hrel : List.Forall₂ (fun e1 e2 => e1.toInstruction = e2.toInstruction ∧
      ∀ o, e2 = Entry.op o → e1 = Entry.op o) l1 l2) :
    ∀ s : S, satisfiesFrom spec s l1 = true → satisfiesFrom spec s l2 = true := by
  induction hrel with
  | nil => exact fun _ h => h
  | @cons e1 e2 t1 t2 h12 htl ih =>
    intro s hsat
    obtain ⟨hinstr, hop⟩ := h12
    cases e2 with
    | op o2 =>
      have he1 : e1 = Entry.op o2 := hop o2 rfl
      subst he1
      revert hsat
      show (if (spec.step s (Entry.op o2).toInstruction).2.ret = o2.ret then
          satisfiesFrom spec (spec.step s (Entry.op o2).toInstruction).1 t1 else false) =
            true →
        (if (spec.step s (Entry.op o2).toInstruction).2.ret = o2.ret then
          satisfiesFrom spec (spec.step s (Entry.op o2).toInstruction).1 t2 else false) =
            true
      by_cases hc : (spec.step s (Entry.op o2).toInstruction).2.ret = o2.ret
      · simp only [if_pos hc]
        exact ih _
      · simp only [if_neg hc]
        exact fun hfalse => hfalse
    | instr i2 =>
      cases e1 with
      | instr i1 =>
        have h12' : i1 = i2 := hinstr
        subst h12'
        exact ih _ hsat
      | op o1 =>
        have hinstr' : o1.to_instruction = i2 := hinstr
        revert hsat
        show (if (spec.step s o1.to_instruction).2.ret = o1.ret then
            satisfiesFrom spec (spec.step s o1.to_instruction).1 t1 else false) = true →
          satisfiesFrom spec (spec.step s i2).1 t2 = true
        rw [hinstr']
        by_cases hc : (spec.step s i2).2.ret = o1.ret
        · simp only [if_pos hc]
          exact ih _
        · simp only [if_neg hc]
          exact fun hfalse => absurd hfalse (by simp)

/-- Pointwise related images give `Forall₂`-related mapped lists. -/
lemma forall₂_map_of_mem {α β : Type} (Rl : β → β → Prop) (f g : α → β) :
    ∀ (l : List α), (∀ x ∈ l, Rl (f x) (g x)) →
      List.Forall₂ Rl (l.map f) (l.map g) := by
  intro l h
  induction l with
  | nil => exact .nil
  | cons a t ih =>
    exact .cons (h a (.head t)) (ih fun x hx => h x (.tail a hx))

/-- Everything in a topological sort of an order lies in its universe. -/
lemma mem_univ_of_mem_topological_sort (p : Poset) (ro : List OpId)
    (hro : ro ∈ p.all_topological_sorts) : ∀ o ∈ ro, o ∈ p.univ := by
  intro o ho
  have hperm : ro.Perm p.univ :=
    List.mem_permutations'.mp (List.mem_filter.mp hro).1
  exact hperm.mem_iff.mp ho

/-- A candidate order produced by `refinements` keeps the universe. -/
lemma univ_of_mem_refinements (p : Poset) (co : Poset)
    (hmem : co ∈ p.refinements) : co.univ = p.univ := by
  unfold Poset.refinements at hmem
  obtain ⟨r, -, rfl⟩ := List.mem_map.mp hmem
  rfl

/-- The per-position relation between the CM log and the CC log over the same
serialization order: equal instruction views, and every full operation of
the CC log is the same full operation in the CM log. -/
lemma cm_cc_log_rel [DecidableEq R] [Inhabited M] [Inhabited A]
    (h : History M A R) (co : Poset) (op_id : OpId)
    (hco : co.univ = h.poset.univ) (ro : List OpId)
    (hro : ro ∈ (cmView h co op_id).poset.all_topological_sorts) :
    List.Forall₂ (fun e1 e2 => e1.toInstruction = e2.toInstruction ∧
        ∀ o, e2 = Entry.op o → e1 = Entry.op o)
      (logOf (cmView h co op_id) ro) (logOf (ccView h co op_id) ro) := by
  apply forall₂_map_of_mem
  intro o ho
  have hou : o ∈ h.poset.univ := by
    have h1 : o ∈ (cmView h co op_id).poset.univ :=
      mem_univ_of_mem_topological_sort _ ro hro o ho
    have h2 : o ∈ co.univ := (List.mem_filter.mp h1).1
    rw [hco] at h2
    exact h2
  rw [show (cmView h co op_id).label = h.label.map (fun kv =>
      (kv.1, if (h.poset.predecessors op_id).contains kv.1 then kv.2
        else kv.2.hideRet)) from rfl,
    show (ccView h co op_id).label = h.label.map (fun kv =>
      (kv.1, if ([op_id] : List OpId).contains kv.1 then kv.2
        else kv.2.hideRet)) from rfl,
    lookupEntry_map_hide, lookupEntry_map_hide]
  constructor
  · rw [toInstruction_if_hide, toInstruction_if_hide]
  · intro o2 he2
    by_cases h2 : o = op_id
    · subst h2
      have h1 : o ∈ h.poset.predecessors o :=
        List.mem_filter.mpr ⟨hou, by simp⟩
      simp only [List.contains_cons, beq_self_eq_true, Bool.true_or, if_true] at he2
      simp [h1]
      exact he2
    · rw [if_neg (by simpa using h2)] at he2
      exact absurd he2 (hideRet_ne_op _ o2)

/-- Per-operation monotonicity: a satisfying CM serialization for a focused
operation yields a satisfying CC serialization for it under the same
candidate order. -/
lemma ccOpLog_isSome_of_cmOpLog [DecidableEq R] [Inhabited M] [Inhabited A]
    (h : History M A R) (spec : Specification M A R S) (co : Poset) (op_id : OpId)
    (hco : co.univ = h.poset.univ)
    (hsome : (cmOpLog h spec co op_id).isSome = true) :
    (ccOpLog h spec co op_id).isSome = true := by
  unfold cmOpLog at hsome
  unfold ccOpLog
  dsimp only at hsome ⊢
  cases hf : ((cmView h co op_id).poset.all_topological_sorts).find?
      (fun ro => spec.satisfies (logOf (cmView h co op_id) ro)) with
  | none => rw [hf] at hsome; exact absurd hsome (by simp)
  | some ro =>
    have hsat0 := List.find?_some hf
    have hsat : spec.satisfies (logOf (cmView h co op_id) ro) = true := hsat0
    have hmem : ro ∈ (cmView h co op_id).poset.all_topological_sorts :=
      List.mem_of_find?_eq_some hf
    have hsat2 : spec.satisfies (logOf (ccView h co op_id) ro) = true :=
      satisfiesFrom_mono spec _ _ (cm_cc_log_rel h co op_id hco ro hmem)
        spec.start hsat
    have hposet : (ccView h co op_id).poset = (cmView h co op_id).poset := rfl
    cases hf2 : ((ccView h co op_id).poset.all_topological_sorts).find?
        (fun ro => spec.satisfies (logOf (ccView h co op_id) ro)) with
    | some ro2 => simp
    | none =>
      exfalso
      have := List.find?_eq_none.mp hf2 ro (by rw [hposet]; exact hmem)
      exact this (by simpa using hsat2)

/-- C2.  If `check_CM` succeeds on a history and oracle, then `check_CC`
succeeds as well: CM's witness order justifies every operation for CC, since
the CC view only hides more returns than the CM view over the same
serializations. -/
theorem check_CM_implies_check_CC [DecidableEq R] [Inhabited M] [Inhabited A]
    (h : History M A R) (spec : Specification M A R S)
    (hcm : (check_CM h spec).is_CM = true) : (check_CC h spec).is_CC = true := by
  unfold check_CM at hcm
  revert hcm
  cases hf : (h.poset.refinements).find?
      (fun co => (co.elements).all (fun op_id => (cmOpLog h spec co op_id).isSome)) with
  | none => intro hcm; exact absurd hcm (by simp)
  | some co =>
    intro _
    have hp0 := List.find?_some hf
    have hp : (co.elements).all (fun op_id => (cmOpLog h spec co op_id).isSome) = true := hp0
    have hmem : co ∈ h.poset.refinements := List.mem_of_find?_eq_some hf
    have hco : co.univ = h.poset.univ := univ_of_mem_refinements _ _ hmem
    have hcc : (co.elements).all (fun op_id => (ccOpLog h spec co op_id).isSome) = true := by
      apply List.all_eq_true.mpr
      intro op_id hop
      exact ccOpLog_isSome_of_cmOpLog h spec co op_id hco
        (List.all_eq_true.mp hp op_id hop)
    unfold check_CC
    cases hf2 : (h.poset.refinements).find?
        (fun co => (co.elements).all (fun op_id => (ccOpLog h spec co op_id).isSome)) with
    | some co2 => rfl
    | none =>
      exfalso
      exact (List.find?_eq_none.mp hf2 co hmem) hcc

/-- Witness for C2: on the concrete two-process history whose read observes
the written value, `check_CM` succeeds, and therefore so does `check_CC`. -/
theorem check_CM_implies_check_CC_witness :
    (check_CM hReadOne rwStringNat).is_CM = true ∧
    (check_CC hReadOne rwStringNat).is_CC = true :=
  ⟨by decide, check_CM_implies_check_CC hReadOne rwStringNat (by decide)⟩
